import Mathlib

/-!
# Verification of the `indexical` sparse bit-matrix library

Shallow embedding of the repository's three source files:

* `src/impls/bv.rs` — the `bitvec`-backed `BitSet` implementation (`impl BitSet for BitVec`),
  modelled here as `BV`, a fixed-length list of booleans;
* `src/impls/rustc.rs` — the `rustc_index`-backed implementation (only the parts the claims
  need: `invert`), plus the `JoinSemiLattice::join` impls, modelled on `IndexMatrix`;
* `src/matrix.rs` — `IndexMatrix`, modelled as a structure holding an association list
  from row keys to sets (the `FxHashMap`) together with the cached canonical empty set.

The `IndexSet` wrapper (`set.rs`) is not part of the provided sources; per the spec it is a
bit-set over indices paired with a shared domain handle, whose operations delegate to the
bit-set and whose structural equality compares only member-index sets.  In the embedding an
`IndexSet` is therefore represented directly by its backing bit-set (`BV`); the shared
domain handle only fixes the common capacity `n`, which theorems carry through the
well-formedness predicate `IndexMatrix.WF`.
-/

set_option autoImplicit false

/-- The `bitvec` crate's `BitVec` (backend of `src/impls/bv.rs`), modelled as a
fixed-length list of booleans; position `i` holds the membership bit of `i`. -/
abbrev BV : Type := List Bool

namespace BV

/-- Rust `BitSet::empty(size)`: `bitvec![usize, Lsb0; 0; size]` — `size` zero bits. -/
def empty (size : Nat) : BV := List.replicate size false

/-- Rust `BitSet::contains(index)`: `self[index]` (out-of-range reads modelled as `false`;
the source panics there and every claim stays in range). -/
def contains (s : BV) (index : Nat) : Bool := s.getD index false

/-- Rust `BitSet::len()`: `self.count_ones()`. -/
def len (s : BV) : Nat := s.count true

/-- Rust `BitSet::insert(index)`: reads `self[index]`, sets the bit, returns whether it
was newly added. -/
def insert (s : BV) (index : Nat) : BV × Bool :=
  (s.set index true, !(s.getD index false))

/-- The `bitvec` crate's `|=` on equal-length bit-vectors: pointwise or. -/
def bvor (s other : BV) : BV := List.zipWith or s other

/-- The `bitvec` crate's `&=` on equal-length bit-vectors: pointwise and. -/
def bvand (s other : BV) : BV := List.zipWith and s other

/-- Rust `BitSet::union(other)`: snapshots `count_ones`, or-assigns, reports whether the
population count changed. -/
def union (s other : BV) : BV × Bool :=
  let r := bvor s other
  (r, r.count true != s.count true)

/-- Rust `BitSet::intersect(other)`: snapshots `count_ones`, and-assigns, reports whether the
population count changed. -/
def intersect (s other : BV) : BV × Bool :=
  let r := bvand s other
  (r, r.count true != s.count true)

/-- Rust `BitSet::invert()`: `!this` — complements every bit up to the length. -/
def invert (s : BV) : BV := s.map not

/-- Rust `BitSet::clear()`: `Vec::clear` — the vector is emptied. -/
def clear (_s : BV) : BV := []

/-- Rust `BitSet::subtract(other)`: clones `other`, inverts the clone, intersects with it,
returning the intersect's change flag. -/
def subtract (s other : BV) : BV × Bool :=
  intersect s (invert other)

/-- The members of a bit-set in ascending order, as produced by `iter_ones`. -/
def members (s : BV) : List Nat :=
  (List.range s.length).filter (fun i => s.getD i false)

end BV


/-!
## The `rustc_index` backend (`src/impls/rustc.rs`)

Only `invert` has repository-side logic (lines 64–68); the remaining methods delegate
one-to-one to `rustc_index::bit_set::BitSet`.  The two external primitives `invert`
calls are embedded with their documented semantics: `new_filled(n)` is the set of all
indices below `n`, and `subtract` removes the other set's members pointwise.
-/

namespace RustcBitSet

/-- The `rustc_index` primitive `BitSet::new_filled(domain_size)`: every bit below `n` set. -/
def new_filled (n : Nat) : BV := List.replicate n true

/-- The `rustc_index` primitive `BitSet::subtract`: pointwise `self AND NOT other`. -/
def rsubtract (s other : BV) : BV := List.zipWith (fun a b => a && !b) s other

/-- Model of `RustcBitSet::invert` from `src/impls/rustc.rs`: build a filled set of the same
domain size, subtract `self` from it, and replace `self` with the result. -/
def invert (s : BV) : BV := rsubtract (new_filled s.length) s

end RustcBitSet


/-!
## `IndexMatrix` (`src/matrix.rs`)

The `FxHashMap<R, IndexSet<C, S, P>>` is modelled as an association list with no
duplicate keys (iteration order is unspecified in the source, so no theorem below
depends on the list order).  Each `IndexSet` value is represented by its backing
bit-set; the `col_domain` pointer only fixes the shared capacity, tracked by `WF`.
-/

/-- First value stored under key `r`, as `HashMap::get`. -/
def findRow? {R : Type} [DecidableEq R] (r : R) : List (R × BV) → Option BV
  | [] => none
  | p :: ps => if p.1 = r then some p.2 else findRow? r ps

/-- Replace the value stored under key `r`, as a `HashMap` entry update. -/
def setRow {R : Type} [DecidableEq R] (r : R) (v : BV) : List (R × BV) → List (R × BV)
  | [] => []
  | p :: ps => if p.1 = r then (p.1, v) :: setRow r v ps else p :: setRow r v ps

/-- Remove every entry stored under key `r`, as `HashMap::remove`. -/
def removeRow {R : Type} [DecidableEq R] (r : R) (l : List (R × BV)) : List (R × BV) :=
  l.filter (fun p => decide (p.1 ≠ r))

/-- Structure `IndexMatrix` from `src/matrix.rs`: the row map plus the cached canonical
empty set (`empty_set`); the `col_domain` handle is represented only through the
capacity of `empty_set`. -/
structure IndexMatrix (R : Type) where
  matrix : List (R × BV)
  empty_set : BV

namespace IndexMatrix

variable {R : Type} [DecidableEq R]

/-- Model of `IndexMatrix::new`: empty row map, `empty_set = IndexSet::new(col_domain)`. -/
def new (R : Type) (n : Nat) : IndexMatrix R := ⟨[], BV.empty n⟩

/-- Model of `IndexMatrix::ensure_row`: `entry(row).or_insert_with(|| self.empty_set.clone())`. -/
def ensure_row (m : IndexMatrix R) (row : R) : IndexMatrix R :=
  match findRow? row m.matrix with
  | some _ => m
  | none => ⟨m.matrix ++ [(row, m.empty_set)], m.empty_set⟩

/-- Model of `IndexMatrix::row_set`: `matrix.get(row).unwrap_or(&self.empty_set)`. -/
def row_set (m : IndexMatrix R) (row : R) : BV :=
  (findRow? row m.matrix).getD m.empty_set

/-- Model of `IndexMatrix::row`: `matrix.get(row).into_iter().flat_map(|set| set.iter())`,
as the ascending list of members it yields. -/
def row (m : IndexMatrix R) (r : R) : List Nat :=
  match findRow? r m.matrix with
  | none => []
  | some s => BV.members s

/-- Model of `IndexMatrix::insert`: materialize the row, insert the column index,
report whether it changed. -/
def insert (m : IndexMatrix R) (r : R) (col : Nat) : IndexMatrix R × Bool :=
  let m1 := ensure_row m r
  let p := BV.insert (row_set m1 r) col
  (⟨setRow r p.1 m1.matrix, m1.empty_set⟩, p.2)

/-- Model of `IndexMatrix::union_rows`: short-circuit on `from == to`, otherwise
materialize both rows and union `from`'s set into `to`'s. -/
def union_rows (m : IndexMatrix R) (fk tk : R) : IndexMatrix R × Bool :=
  if fk = tk then (m, false)
  else
    let m1 := ensure_row (ensure_row m fk) tk
    let u := BV.union (row_set m1 tk) (row_set m1 fk)
    (⟨setRow tk u.1 m1.matrix, m1.empty_set⟩, u.2)

/-- Model of `IndexMatrix::clear_row`: `matrix.remove(row)`. -/
def clear_row (m : IndexMatrix R) (r : R) : IndexMatrix R :=
  ⟨removeRow r m.matrix, m.empty_set⟩

/-- Row keys of the materialized rows, as yielded by `IndexMatrix::rows`. -/
def keys (m : IndexMatrix R) : List R := m.matrix.map Prod.fst

/-- Modelled from the spec: `IndexSet` structural equality (`set.rs` is not among
the sources) "compares only member-index sets". -/
def setEqv (a b : BV) : Bool := BV.members a == BV.members b

/-- The `FxHashMap` equality as used by `IndexMatrix::eq`: equal size, and every
entry of `a` is mapped in `b` to an equal value. -/
def mapEqv [DecidableEq R] (a b : List (R × BV)) : Bool :=
  (a.length == b.length) &&
  a.all (fun p =>
    match findRow? p.1 b with
    | some v => setEqv p.2 v
    | none => false)

/-- Model of `IndexMatrix::eq`: `self.matrix == other.matrix`. -/
def matEq (a b : IndexMatrix R) : Bool := mapEqv a.matrix b.matrix

/-- One iteration of the loop in `IndexMatrix::join` (`src/impls/rustc.rs`):
`changed |= self.ensure_row(row.clone()).union_changed(col)`. -/
def join_step (acc : IndexMatrix R × Bool) (p : R × BV) : IndexMatrix R × Bool :=
  let m1 := ensure_row acc.1 p.1
  let u := BV.union (row_set m1 p.1) p.2
  (⟨setRow p.1 u.1 m1.matrix, m1.empty_set⟩, acc.2 || u.2)

/-- Model of `JoinSemiLattice::join` for `IndexMatrix` (`src/impls/rustc.rs` lines 115–121). -/
def join (a b : IndexMatrix R) : IndexMatrix R × Bool :=
  b.matrix.foldl join_step (a, false)

/-- One iteration of the refill loop in `IndexMatrix::clone_from`:
`self.ensure_row(row.clone()).clone_from(col)`.  Modelled from the spec:
`IndexSet::clone_from` (`set.rs` is not among the sources) makes the
destination's members equal the source's. -/
def clone_step (acc : IndexMatrix R) (p : R × BV) : IndexMatrix R :=
  let m1 := ensure_row acc p.1
  ⟨setRow p.1 p.2 m1.matrix, m1.empty_set⟩

/-- Model of `IndexMatrix::clone_from` (`src/matrix.rs` lines 125–136): clear every
materialized row's contents, refill row-by-row from `source`, then copy the
`empty_set` and `col_domain` fields. -/
def clone_from (m source : IndexMatrix R) : IndexMatrix R :=
  let cleared : IndexMatrix R := ⟨m.matrix.map (fun p => (p.1, BV.clear p.2)), m.empty_set⟩
  let filled := source.matrix.foldl clone_step cleared
  ⟨filled.matrix, source.empty_set⟩

/-- Well-formedness tied to a column domain of cardinality `n`: the cached empty
set is the length-`n` zero vector, row keys are distinct (a hash map), and every
row's set has capacity `n` (every live row shares the matrix's column domain). -/
def WF (n : Nat) (m : IndexMatrix R) : Prop :=
  m.empty_set = BV.empty n ∧ (m.matrix.map Prod.fst).Nodup ∧
    ∀ p ∈ m.matrix, p.2.length = n

instance decidableWF (n : Nat) (m : IndexMatrix R) : Decidable (WF n m) :=
  inferInstanceAs (Decidable (m.empty_set = BV.empty n ∧
    (m.matrix.map Prod.fst).Nodup ∧ ∀ p ∈ m.matrix, p.2.length = n))

end IndexMatrix

/-- Example over `R = Nat`, column domain of cardinality 3: the matrix `{0 ↦ {1}}`
built by `insert(0, 1)` on a fresh matrix. -/
def mEx1 : IndexMatrix Nat := (IndexMatrix.insert (IndexMatrix.new Nat 3) 0 1).1

/-- Example: `union_rows(0, 1)` on a fresh matrix materializes two empty rows. -/
def mEx2 : IndexMatrix Nat := (IndexMatrix.union_rows (IndexMatrix.new Nat 3) 0 1).1

/-- Example from the spec scenario: `{0 ↦ {1}, 1 ↦ {2}}` over domain cardinality 3. -/
def mEx3 : IndexMatrix Nat := (IndexMatrix.insert mEx1 1 2).1


/-!
## Lemmas
-/

namespace BV

theorem length_empty (n : Nat) : (empty n).length = n := List.length_replicate n false

theorem contains_empty (n i : Nat) : contains (empty n) i = false := by
  unfold contains empty
  rcases Nat.lt_or_ge i n with h | h
  · rw [List.getD_eq_getElem _ _ (by simpa using h)]
    simp
  · rw [List.getD_eq_default]
    simpa using h

theorem length_bvor (a b : BV) (h : a.length = b.length) :
    (bvor a b).length = a.length := by
  unfold bvor
  rw [List.length_zipWith, h, Nat.min_self]

theorem contains_bvor (a b : BV) (h : a.length = b.length) (i : Nat) :
    contains (bvor a b) i = (contains a i || contains b i) := by
  induction a generalizing b i with
  | nil =>
    cases b with
    | nil => simp [bvor, contains]
    | cons y ys => simp at h
  | cons x xs ih =>
    cases b with
    | nil => simp at h
    | cons y ys =>
      cases i with
      | zero => simp [bvor, contains]
      | succ j =>
        have := ih ys (by simpa using h) j
        simpa [bvor, contains] using this

theorem contains_bvand (a b : BV) (h : a.length = b.length) (i : Nat) :
    contains (bvand a b) i = (contains a i && contains b i) := by
  induction a generalizing b i with
  | nil =>
    cases b with
    | nil => simp [bvand, contains]
    | cons y ys => simp at h
  | cons x xs ih =>
    cases b with
    | nil => simp at h
    | cons y ys =>
      cases i with
      | zero => simp [bvand, contains]
      | succ j =>
        have := ih ys (by simpa using h) j
        simpa [bvand, contains] using this

theorem count_le_count_bvor (a b : BV) (h : a.length = b.length) :
    a.count true ≤ (bvor a b).count true := by
  induction a generalizing b with
  | nil => simp [bvor]
  | cons x xs ih =>
    cases b with
    | nil => simp at h
    | cons y ys =>
      simp only [bvor, List.zipWith_cons_cons, List.count_cons]
      have hx : (if (x == true) = true then 1 else 0) ≤
          (if ((x || y) == true) = true then 1 else 0) := by
        cases x <;> cases y <;> decide
      exact Nat.add_le_add (ih ys (by simpa using h)) hx

theorem bvor_eq_self_of_count (a b : BV) (h : a.length = b.length)
    (hc : (bvor a b).count true = a.count true) : bvor a b = a := by
  induction a generalizing b with
  | nil =>
    cases b with
    | nil => rfl
    | cons y ys => simp at h
  | cons x xs ih =>
    cases b with
    | nil => simp at h
    | cons y ys =>
      simp only [bvor, List.zipWith_cons_cons, List.count_cons] at hc ⊢
      have hxs := count_le_count_bvor xs ys (by simpa using h)
      simp only [bvor] at hxs
      have hx : (if (x == true) = true then 1 else 0) ≤
          (if ((x || y) == true) = true then 1 else 0) := by
        cases x <;> cases y <;> decide
      have hcnt : List.count true (List.zipWith or xs ys) = List.count true xs ∧
          (if ((x || y) == true) = true then 1 else 0) =
            (if (x == true) = true then 1 else 0) := by
        omega
      have h1 := ih ys (by simpa using h) (by simpa [bvor] using hcnt.1)
      have h2 : (x || y) = x := by
        cases x <;> cases y <;> simp_all
      simp only [bvor] at h1
      rw [h1, h2]

theorem bvor_eq_self_iff (a b : BV) (h : a.length = b.length) :
    bvor a b = a ↔ ∀ i, contains b i = true → contains a i = true := by
  constructor
  · intro he i hb
    have hco := contains_bvor a b h i
    rw [he] at hco
    rw [hco, hb, Bool.or_true]
  · intro hsub
    have hlen := length_bvor a b h
    apply List.ext_getElem hlen
    intro i h1 h2
    have hc := contains_bvor a b h i
    unfold contains at hc
    rw [List.getD_eq_getElem _ _ h1, List.getD_eq_getElem _ _ h2,
        List.getD_eq_getElem _ _ (h ▸ h2)] at hc
    rcases hb : b[i] with _ | _
    · simpa [hb] using hc
    · have ha : a[i] = true := by
        have hs := hsub i
        unfold contains at hs
        rw [List.getD_eq_getElem _ _ (h ▸ h2)] at hs
        have hs2 := hs hb
        rw [List.getD_eq_getElem _ _ h2] at hs2
        exact hs2
      rw [hc, hb, ha]
      simp

/-- The union change flag is true exactly when `other` contributes a new member. -/
theorem union_changed_iff (a b : BV) (h : a.length = b.length) :
    (union a b).2 = true ↔ ∃ i, contains b i = true ∧ contains a i = false := by
  unfold union
  simp only [bne_iff_ne, ne_eq]
  constructor
  · intro hne
    by_contra hno
    push_neg at hno
    apply hne
    have : bvor a b = a := by
      rw [bvor_eq_self_iff a b h]
      intro i hb
      rcases ha : contains a i with _ | _
      · exact absurd ha (by simpa [hb] using hno i)
      · rfl
    rw [this]
  · rintro ⟨i, hb, ha⟩ hc
    have he := bvor_eq_self_of_count a b h hc
    have := contains_bvor a b h i
    rw [he, hb, ha] at this
    simp at this

theorem union_fst (a b : BV) : (union a b).1 = bvor a b := rfl

theorem union_not_changed (a b : BV) (h : a.length = b.length)
    (hsub : ∀ i, contains b i = true → contains a i = true) :
    (union a b).2 = false := by
  rcases hch : (union a b).2 with _ | _
  · rfl
  · rcases (union_changed_iff a b h).mp hch with ⟨i, hb, ha⟩
    rw [hsub i hb] at ha
    cases ha

theorem count_bvand_le (a b : BV) :
    (bvand a b).count true ≤ a.count true := by
  induction a generalizing b with
  | nil => simp [bvand]
  | cons x xs ih =>
    cases b with
    | nil => simp [bvand]
    | cons y ys =>
      simp only [bvand, List.zipWith_cons_cons, List.count_cons]
      have hx : (if ((x && y) == true) = true then 1 else 0) ≤
          (if (x == true) = true then 1 else 0) := by
        cases x <;> cases y <;> decide
      exact Nat.add_le_add (ih ys) hx

/-- The union change flag holds exactly when the population count strictly increased. -/
theorem union_changed_iff_count (a b : BV) (h : a.length = b.length) :
    (union a b).2 = true ↔ a.count true < (union a b).1.count true := by
  unfold union
  simp only [bne_iff_ne, ne_eq]
  have hle := count_le_count_bvor a b h
  omega

/-- The intersect change flag holds exactly when the population count strictly decreased. -/
theorem intersect_changed_iff_count (a b : BV) :
    (intersect a b).2 = true ↔ (intersect a b).1.count true < a.count true := by
  unfold intersect
  simp only [bne_iff_ne, ne_eq]
  have hle := count_bvand_le a b
  omega

/-- The subtract change flag holds exactly when the population count strictly decreased. -/
theorem subtract_changed_iff_count (a b : BV) :
    (subtract a b).2 = true ↔ (subtract a b).1.count true < a.count true := by
  unfold subtract
  exact intersect_changed_iff_count a (invert b)

theorem length_invert (s : BV) : (invert s).length = s.length := by
  simp [invert]

theorem contains_invert (s : BV) (i : Nat) (h : i < s.length) :
    contains (invert s) i = !(contains s i) := by
  unfold contains invert
  rw [List.getD_eq_getElem _ _ (by simpa using h), List.getD_eq_getElem _ _ h]
  simp

theorem invert_invert (s : BV) : invert (invert s) = s := by
  unfold invert
  rw [List.map_map]
  have : (not ∘ not) = id := by
    funext x
    cases x <;> rfl
  rw [this, List.map_id]

theorem mem_members (s : BV) (i : Nat) :
    i ∈ members s ↔ i < s.length ∧ contains s i = true := by
  unfold members contains
  simp [List.mem_filter]

theorem members_empty (n : Nat) : members (empty n) = [] := by
  unfold members
  apply List.filter_eq_nil_iff.mpr
  intro i _
  simpa using (by simpa [contains] using contains_empty n i)

end BV

namespace RustcBitSet

theorem rsubtract_new_filled (s : BV) : invert s = s.map not := by
  unfold invert new_filled rsubtract
  induction s with
  | nil => rfl
  | cons x xs ih => simpa [List.replicate_succ] using ih

theorem rcontains_invert (s : BV) (i : Nat) (h : i < s.length) :
    BV.contains (invert s) i = !(BV.contains s i) := by
  rw [rsubtract_new_filled]
  exact BV.contains_invert s i h

theorem rinvert_rinvert (s : BV) : invert (invert s) = s := by
  rw [rsubtract_new_filled, rsubtract_new_filled]
  exact BV.invert_invert s

end RustcBitSet


section AssocLemmas

variable {R : Type} [DecidableEq R]

theorem findRow?_nil (r : R) : findRow? r ([] : List (R × BV)) = none := rfl

theorem findRow?_cons (r : R) (p : R × BV) (ps : List (R × BV)) :
    findRow? r (p :: ps) = if p.1 = r then some p.2 else findRow? r ps := rfl

theorem setRow_cons (r : R) (v : BV) (p : R × BV) (ps : List (R × BV)) :
    setRow r v (p :: ps) =
      if p.1 = r then (p.1, v) :: setRow r v ps else p :: setRow r v ps := rfl

theorem findRow?_append_of_none (r : R) (l1 l2 : List (R × BV))
    (h : findRow? r l1 = none) : findRow? r (l1 ++ l2) = findRow? r l2 := by
  induction l1 with
  | nil => rfl
  | cons p ps ih =>
    rw [List.cons_append, findRow?_cons]
    rw [findRow?_cons] at h
    by_cases hp : p.1 = r
    · rw [if_pos hp] at h
      cases h
    · rw [if_neg hp] at h ⊢
      exact ih h

theorem findRow?_append_of_some (r : R) (l1 l2 : List (R × BV)) (v : BV)
    (h : findRow? r l1 = some v) : findRow? r (l1 ++ l2) = some v := by
  induction l1 with
  | nil => cases h
  | cons p ps ih =>
    rw [List.cons_append, findRow?_cons]
    rw [findRow?_cons] at h
    by_cases hp : p.1 = r
    · rw [if_pos hp] at h ⊢
      exact h
    · rw [if_neg hp] at h ⊢
      exact ih h

theorem findRow?_setRow_self (r : R) (v : BV) (l : List (R × BV)) :
    findRow? r (setRow r v l) = (findRow? r l).map (fun _ => v) := by
  induction l with
  | nil => rfl
  | cons p ps ih =>
    by_cases hp : p.1 = r
    · simp [setRow_cons, findRow?_cons, hp]
    · simp [setRow_cons, findRow?_cons, hp, ih]

theorem findRow?_setRow_ne (r r' : R) (v : BV) (l : List (R × BV)) (h : r' ≠ r) :
    findRow? r' (setRow r v l) = findRow? r' l := by
  induction l with
  | nil => rfl
  | cons p ps ih =>
    rw [setRow_cons, findRow?_cons]
    by_cases hp : p.1 = r
    · have hp' : ¬ p.1 = r' := fun hc => h (by rw [← hc]; exact hp)
      rw [if_pos hp, findRow?_cons, if_neg hp', if_neg hp']
      exact ih
    · rw [if_neg hp, findRow?_cons]
      by_cases hq : p.1 = r'
      · rw [if_pos hq, if_pos hq]
      · rw [if_neg hq, if_neg hq]
        exact ih

theorem keys_setRow (r : R) (v : BV) (l : List (R × BV)) :
    (setRow r v l).map Prod.fst = l.map Prod.fst := by
  induction l with
  | nil => rfl
  | cons p ps ih =>
    rw [setRow_cons]
    by_cases hp : p.1 = r
    · rw [if_pos hp, List.map_cons, List.map_cons, ih]
    · rw [if_neg hp, List.map_cons, List.map_cons, ih]

theorem setRow_forall_values (r : R) (v : BV) (l : List (R × BV))
    (P : BV → Prop) (hl : ∀ p ∈ l, P p.2) (hv : P v) :
    ∀ p ∈ setRow r v l, P p.2 := by
  induction l with
  | nil => intro p hp; cases hp
  | cons q qs ih =>
    intro p hp
    rw [setRow_cons] at hp
    by_cases hq : q.1 = r
    · rw [if_pos hq] at hp
      rcases List.mem_cons.mp hp with hp | hp
      · rw [hp]; exact hv
      · exact ih (fun x hx => hl x (List.mem_cons_of_mem q hx)) p hp
    · rw [if_neg hq] at hp
      rcases List.mem_cons.mp hp with hp | hp
      · rw [hp]; exact hl q (List.mem_cons_self q qs)
      · exact ih (fun x hx => hl x (List.mem_cons_of_mem q hx)) p hp

theorem findRow?_eq_none_iff (r : R) (l : List (R × BV)) :
    findRow? r l = none ↔ r ∉ l.map Prod.fst := by
  induction l with
  | nil => simp [findRow?_nil]
  | cons p ps ih =>
    rw [findRow?_cons, List.map_cons]
    by_cases hp : p.1 = r
    · simp [hp]
    · rw [if_neg hp, ih, List.mem_cons, not_or]
      constructor
      · intro hn
        exact ⟨fun hc => hp hc.symm, hn⟩
      · intro hn
        exact hn.2

theorem findRow?_mem (r : R) (l : List (R × BV)) (v : BV)
    (h : findRow? r l = some v) : (r, v) ∈ l := by
  induction l with
  | nil => cases h
  | cons p ps ih =>
    rw [findRow?_cons] at h
    by_cases hp : p.1 = r
    · rw [if_pos hp] at h
      cases h
      rw [← hp]
      exact List.mem_cons_self p ps
    · rw [if_neg hp] at h
      exact List.mem_cons_of_mem p (ih h)

theorem findRow?_of_nodup_mem (l : List (R × BV)) (hnd : (l.map Prod.fst).Nodup)
    (p : R × BV) (hp : p ∈ l) : findRow? p.1 l = some p.2 := by
  induction l with
  | nil => cases hp
  | cons q qs ih =>
    have hnd' := hnd
    rw [List.map_cons, List.nodup_cons] at hnd'
    rcases List.mem_cons.mp hp with hq | hq
    · rw [hq, findRow?_cons, if_pos rfl]
    · rw [findRow?_cons]
      by_cases hqp : q.1 = p.1
      · exfalso
        apply hnd'.1
        rw [hqp]
        exact List.mem_map.mpr ⟨p, hq, rfl⟩
      · rw [if_neg hqp]
        exact ih hnd'.2 hq

theorem findRow?_removeRow_self (r : R) (l : List (R × BV)) :
    findRow? r (removeRow r l) = none := by
  rw [findRow?_eq_none_iff]
  intro hmem
  rcases List.mem_map.mp hmem with ⟨p, hp, hfst⟩
  have hne := (List.mem_filter.mp hp).2
  rw [hfst] at hne
  simp at hne

theorem nodup_removeRow (r : R) (l : List (R × BV)) (h : (l.map Prod.fst).Nodup) :
    ((removeRow r l).map Prod.fst).Nodup := by
  unfold removeRow
  exact (List.Sublist.map Prod.fst (List.filter_sublist l)).nodup h

end AssocLemmas

namespace IndexMatrix

variable {R : Type} [DecidableEq R]

theorem ensure_row_eq (m : IndexMatrix R) (r : R) :
    ensure_row m r = match findRow? r m.matrix with
      | some _ => m
      | none => ⟨m.matrix ++ [(r, m.empty_set)], m.empty_set⟩ := rfl

theorem empty_set_ensure_row (m : IndexMatrix R) (r : R) :
    (ensure_row m r).empty_set = m.empty_set := by
  rw [ensure_row_eq]
  split <;> rfl

theorem findRow?_ensure_self (m : IndexMatrix R) (r : R) :
    findRow? r (ensure_row m r).matrix = some (row_set m r) := by
  rw [ensure_row_eq]
  split
  · rename_i v hf
    simp only [row_set, hf, Option.getD_some]
  · rename_i hf
    simp only [row_set, hf, Option.getD_none]
    rw [findRow?_append_of_none r _ _ hf, findRow?_cons]
    simp

theorem findRow?_ensure_ne (m : IndexMatrix R) (r r' : R) (h : r' ≠ r) :
    findRow? r' (ensure_row m r).matrix = findRow? r' m.matrix := by
  rw [ensure_row_eq]
  split
  · rfl
  · rename_i hf
    cases hf' : findRow? r' m.matrix with
    | some v => exact findRow?_append_of_some r' _ _ v hf'
    | none =>
      rw [findRow?_append_of_none r' _ _ hf', findRow?_cons,
        if_neg (fun hc : r = r' => h hc.symm)]
      rfl

theorem row_set_ensure_row (m : IndexMatrix R) (r r' : R) :
    row_set (ensure_row m r) r' = row_set m r' := by
  by_cases hrr : r' = r
  · rw [hrr]
    simp only [row_set, findRow?_ensure_self, Option.getD_some]
  · simp only [row_set, findRow?_ensure_ne m r r' hrr, empty_set_ensure_row]

theorem mem_keys_ensure_self (m : IndexMatrix R) (r : R) :
    r ∈ (ensure_row m r).matrix.map Prod.fst := by
  have hf := findRow?_ensure_self m r
  have hmem := findRow?_mem r _ _ hf
  exact List.mem_map.mpr ⟨(r, row_set m r), hmem, rfl⟩

theorem mem_keys_ensure_of_mem (m : IndexMatrix R) (r r' : R)
    (h : r' ∈ m.matrix.map Prod.fst) : r' ∈ (ensure_row m r).matrix.map Prod.fst := by
  rw [ensure_row_eq]
  split
  · exact h
  · simp only [List.map_append, List.mem_append]
    exact Or.inl h

theorem row_set_length (n : Nat) (m : IndexMatrix R) (hwf : WF n m) (r : R) :
    (row_set m r).length = n := by
  rw [row_set]
  cases hf : findRow? r m.matrix with
  | some v =>
    have hmem := findRow?_mem r _ _ hf
    exact hwf.2.2 (r, v) hmem
  | none =>
    simp only [Option.getD_none, hwf.1]
    exact BV.length_empty n

theorem WF_ensure_row (n : Nat) (m : IndexMatrix R) (hwf : WF n m) (r : R) :
    WF n (ensure_row m r) := by
  rw [ensure_row_eq]
  split
  · exact hwf
  · rename_i hf
    refine ⟨hwf.1, ?_, ?_⟩
    · simp only [List.map_append, List.map_cons, List.map_nil]
      rw [List.nodup_append]
      refine ⟨hwf.2.1, List.nodup_singleton r, ?_⟩
      intro x hx hx'
      rw [List.mem_singleton] at hx'
      rw [hx'] at hx
      exact (findRow?_eq_none_iff r m.matrix).mp hf hx
    · intro p hp
      rcases List.mem_append.mp hp with hp | hp
      · exact hwf.2.2 p hp
      · rw [List.mem_singleton] at hp
        rw [hp, hwf.1]
        exact BV.length_empty n
      
omit [DecidableEq R] in
theorem WF_new (n : Nat) : WF n (new R n) :=
  ⟨rfl, List.nodup_nil, fun p hp => absurd hp (List.not_mem_nil p)⟩

theorem matEq_refl (m : IndexMatrix R) (hnd : (m.matrix.map Prod.fst).Nodup) :
    matEq m m = true := by
  rw [matEq, mapEqv]
  simp only [Bool.and_eq_true, beq_iff_eq, List.all_eq_true]
  refine ⟨by simp, ?_⟩
  intro p hp
  rw [findRow?_of_nodup_mem m.matrix hnd p hp]
  simp [setEqv]

end IndexMatrix

theorem any_congr_mem {A : Type} (l : List A) (f g : A → Bool)
    (h : ∀ a ∈ l, f a = g a) : l.any f = l.any g := by
  induction l with
  | nil => rfl
  | cons x xs ih =>
    rw [List.any_cons, List.any_cons, h x (List.mem_cons_self x xs),
      ih (fun a ha => h a (List.mem_cons_of_mem x ha))]

namespace IndexMatrix

variable {R : Type} [DecidableEq R]

theorem row_set_mk_setRow_ne (l : List (R × BV)) (e : BV) (r q : R) (v : BV)
    (h : q ≠ r) : row_set ⟨setRow r v l, e⟩ q = row_set ⟨l, e⟩ q := by
  simp only [row_set, findRow?_setRow_ne r q v l h]

theorem row_set_mk_setRow_self (l : List (R × BV)) (e : BV) (r : R) (v w : BV)
    (hf : findRow? r l = some w) : row_set ⟨setRow r v l, e⟩ r = v := by
  simp only [row_set, findRow?_setRow_self, hf, Option.map_some', Option.getD_some]

theorem row_set_join_step (acc : IndexMatrix R × Bool) (p : R × BV) (q : R) :
    row_set (join_step acc p).1 q =
      if q = p.1 then (BV.union (row_set acc.1 p.1) p.2).1 else row_set acc.1 q := by
  simp only [join_step]
  by_cases hq : q = p.1
  · rw [if_pos hq, hq, row_set_ensure_row]
    exact row_set_mk_setRow_self _ _ _ _ _ (findRow?_ensure_self acc.1 p.1)
  · rw [if_neg hq, row_set_mk_setRow_ne _ _ _ _ _ hq]
    show row_set (ensure_row acc.1 p.1) q = row_set acc.1 q
    exact row_set_ensure_row acc.1 p.1 q

theorem join_step_snd (acc : IndexMatrix R × Bool) (p : R × BV) :
    (join_step acc p).2 = (acc.2 || (BV.union (row_set acc.1 p.1) p.2).2) := by
  simp only [join_step]
  rw [row_set_ensure_row]

theorem WF_join_step (n : Nat) (acc : IndexMatrix R × Bool) (p : R × BV)
    (hwf : WF n acc.1) (hp : p.2.length = n) : WF n (join_step acc p).1 := by
  simp only [join_step]
  have hwf1 := WF_ensure_row n acc.1 hwf p.1
  have h1 : (row_set (ensure_row acc.1 p.1) p.1).length = n :=
    row_set_length n _ hwf1 p.1
  refine ⟨hwf1.1, ?_, ?_⟩
  · rw [keys_setRow]
    exact hwf1.2.1
  · refine setRow_forall_values _ _ _ (fun v => v.length = n) hwf1.2.2 ?_
    show (BV.union (row_set (ensure_row acc.1 p.1) p.1) p.2).1.length = n
    rw [BV.union_fst, BV.length_bvor _ _ (by rw [h1, hp]), h1]

theorem WF_join_fold (n : Nat) (bs : List (R × BV)) (acc : IndexMatrix R × Bool)
    (hwf : WF n acc.1) (hbs : ∀ p ∈ bs, p.2.length = n) :
    WF n (bs.foldl join_step acc).1 := by
  induction bs generalizing acc with
  | nil => exact hwf
  | cons p ps ih =>
    rw [List.foldl_cons]
    exact ih (join_step acc p)
      (WF_join_step n acc p hwf (hbs p (List.mem_cons_self p ps)))
      (fun x hx => hbs x (List.mem_cons_of_mem p hx))

theorem join_fold_row_set (n : Nat) (bs : List (R × BV)) (acc : IndexMatrix R × Bool)
    (q : R) (hwf : WF n acc.1) (hbs : ∀ p ∈ bs, p.2.length = n)
    (hnd : (bs.map Prod.fst).Nodup) :
    row_set (bs.foldl join_step acc).1 q =
      match findRow? q bs with
      | some s => BV.bvor (row_set acc.1 q) s
      | none => row_set acc.1 q := by
  induction bs generalizing acc with
  | nil => rfl
  | cons p ps ih =>
    rw [List.foldl_cons]
    have hnd2 := hnd
    rw [List.map_cons, List.nodup_cons] at hnd2
    have hstep := ih (join_step acc p)
      (WF_join_step n acc p hwf (hbs p (List.mem_cons_self p ps)))
      (fun x hx => hbs x (List.mem_cons_of_mem p hx)) hnd2.2
    rw [hstep, findRow?_cons]
    by_cases hq : q = p.1
    · have hnone : findRow? q ps = none := by
        rw [findRow?_eq_none_iff, hq]
        exact hnd2.1
      rw [hnone, if_pos hq.symm]
      rw [row_set_join_step, if_pos hq, hq, BV.union_fst]
    · have hne : ¬ p.1 = q := fun hc => hq hc.symm
      rw [if_neg hne]
      cases hf : findRow? q ps with
      | some s =>
        rw [row_set_join_step, if_neg hq]
      | none =>
        rw [row_set_join_step, if_neg hq]

theorem join_fold_flag (n : Nat) (bs : List (R × BV)) (acc : IndexMatrix R × Bool)
    (hwf : WF n acc.1) (hbs : ∀ p ∈ bs, p.2.length = n)
    (hnd : (bs.map Prod.fst).Nodup) :
    (bs.foldl join_step acc).2 =
      (acc.2 || bs.any (fun p => (BV.union (row_set acc.1 p.1) p.2).2)) := by
  induction bs generalizing acc with
  | nil => simp
  | cons p ps ih =>
    rw [List.foldl_cons]
    have hnd2 := hnd
    rw [List.map_cons, List.nodup_cons] at hnd2
    rw [ih (join_step acc p)
      (WF_join_step n acc p hwf (hbs p (List.mem_cons_self p ps)))
      (fun x hx => hbs x (List.mem_cons_of_mem p hx)) hnd2.2]
    rw [join_step_snd, List.any_cons]
    have hcong : ∀ x ∈ ps,
        (BV.union (row_set (join_step acc p).1 x.1) x.2).2 =
          (BV.union (row_set acc.1 x.1) x.2).2 := by
      intro x hx
      have hxne : x.1 ≠ p.1 := by
        intro hc
        apply hnd2.1
        rw [← hc]
        exact List.mem_map.mpr ⟨x, hx, rfl⟩
      rw [row_set_join_step, if_neg hxne]
    rw [any_congr_mem ps _ _ hcong, Bool.or_assoc]

theorem findRow?_clone_step (acc : IndexMatrix R) (p : R × BV) (q : R) :
    findRow? q (clone_step acc p).matrix =
      if q = p.1 then some p.2 else findRow? q acc.matrix := by
  simp only [clone_step]
  by_cases hq : q = p.1
  · rw [if_pos hq, hq, findRow?_setRow_self, findRow?_ensure_self]
    rfl
  · rw [if_neg hq, findRow?_setRow_ne _ _ _ _ hq, findRow?_ensure_ne _ _ _ hq]

theorem keys_clone_step (acc : IndexMatrix R) (p : R × BV) (q : R)
    (h : q ∈ acc.matrix.map Prod.fst) :
    q ∈ (clone_step acc p).matrix.map Prod.fst := by
  simp only [clone_step]
  rw [keys_setRow]
  exact mem_keys_ensure_of_mem acc p.1 q h

theorem clone_fold_findRow? (bs : List (R × BV)) (acc : IndexMatrix R) (q : R)
    (hnd : (bs.map Prod.fst).Nodup) :
    findRow? q (bs.foldl clone_step acc).matrix =
      match findRow? q bs with
      | some v => some v
      | none => findRow? q acc.matrix := by
  induction bs generalizing acc with
  | nil => rfl
  | cons p ps ih =>
    rw [List.foldl_cons]
    have hnd2 := hnd
    rw [List.map_cons, List.nodup_cons] at hnd2
    rw [ih (clone_step acc p) hnd2.2, findRow?_cons]
    by_cases hq : q = p.1
    · have hnone : findRow? q ps = none := by
        rw [findRow?_eq_none_iff, hq]
        exact hnd2.1
      rw [hnone, if_pos hq.symm, findRow?_clone_step, if_pos hq]
    · have hne : ¬ p.1 = q := fun hc => hq hc.symm
      rw [if_neg hne]
      cases hf : findRow? q ps with
      | some s => rfl
      | none => rw [findRow?_clone_step, if_neg hq]

theorem clone_fold_keys (bs : List (R × BV)) (acc : IndexMatrix R) (q : R)
    (h : q ∈ acc.matrix.map Prod.fst) :
    q ∈ (bs.foldl clone_step acc).matrix.map Prod.fst := by
  induction bs generalizing acc with
  | nil => exact h
  | cons p ps ih =>
    rw [List.foldl_cons]
    exact ih (clone_step acc p) (keys_clone_step acc p q h)

theorem findRow?_map_clear (q : R) (l : List (R × BV)) :
    findRow? q (l.map (fun p => (p.1, BV.clear p.2))) =
      (findRow? q l).map (fun _ => ([] : BV)) := by
  induction l with
  | nil => rfl
  | cons p ps ih =>
    rw [List.map_cons, findRow?_cons, findRow?_cons]
    by_cases hp : p.1 = q
    · rw [if_pos hp, if_pos hp]
      rfl
    · rw [if_neg hp, if_neg hp, ih]

theorem keys_map_clear (l : List (R × BV)) :
    (l.map (fun p => (p.1, BV.clear p.2))).map Prod.fst = l.map Prod.fst := by
  rw [List.map_map]
  rfl

end IndexMatrix

section MoreAssoc

variable {R : Type} [DecidableEq R]

theorem setRow_append (r : R) (v : BV) (l1 l2 : List (R × BV)) :
    setRow r v (l1 ++ l2) = setRow r v l1 ++ setRow r v l2 := by
  induction l1 with
  | nil => rfl
  | cons p ps ih =>
    rw [List.cons_append, setRow_cons, setRow_cons]
    by_cases hp : p.1 = r
    · rw [if_pos hp, if_pos hp, List.cons_append, ih]
    · rw [if_neg hp, if_neg hp, List.cons_append, ih]

theorem setRow_absent (r : R) (v : BV) (l : List (R × BV))
    (h : findRow? r l = none) : setRow r v l = l := by
  induction l with
  | nil => rfl
  | cons p ps ih =>
    rw [findRow?_cons] at h
    by_cases hp : p.1 = r
    · rw [if_pos hp] at h
      cases h
    · rw [if_neg hp] at h
      rw [setRow_cons, if_neg hp, ih h]

theorem removeRow_absent (r : R) (l : List (R × BV))
    (h : findRow? r l = none) : removeRow r l = l := by
  rw [findRow?_eq_none_iff] at h
  unfold removeRow
  apply List.filter_eq_self.mpr
  intro p hp
  simp only [decide_eq_true_eq, ne_eq]
  intro hc
  exact h (List.mem_map.mpr ⟨p, hp, hc⟩)

theorem removeRow_append (r : R) (l1 l2 : List (R × BV)) :
    removeRow r (l1 ++ l2) = removeRow r l1 ++ removeRow r l2 :=
  List.filter_append l1 l2

end MoreAssoc

namespace IndexMatrix

variable {R : Type} [DecidableEq R]

theorem join_def (a b : IndexMatrix R) :
    join a b = b.matrix.foldl join_step (a, false) := rfl

theorem row_eq (m : IndexMatrix R) (r : R) :
    row m r = match findRow? r m.matrix with
      | none => []
      | some s => BV.members s := rfl

theorem clone_from_def (m source : IndexMatrix R) :
    clone_from m source =
      ⟨(source.matrix.foldl clone_step
          ⟨m.matrix.map (fun p => (p.1, BV.clear p.2)), m.empty_set⟩).matrix,
        source.empty_set⟩ := rfl

theorem join_row_set_of_some (n : Nat) (bs : List (R × BV)) (acc : IndexMatrix R × Bool)
    (q : R) (s : BV) (hwf : WF n acc.1) (hbs : ∀ p ∈ bs, p.2.length = n)
    (hnd : (bs.map Prod.fst).Nodup) (hf : findRow? q bs = some s) :
    row_set (bs.foldl join_step acc).1 q = BV.bvor (row_set acc.1 q) s := by
  rw [join_fold_row_set n bs acc q hwf hbs hnd, hf]

theorem join_row_set_of_none (n : Nat) (bs : List (R × BV)) (acc : IndexMatrix R × Bool)
    (q : R) (hwf : WF n acc.1) (hbs : ∀ p ∈ bs, p.2.length = n)
    (hnd : (bs.map Prod.fst).Nodup) (hf : findRow? q bs = none) :
    row_set (bs.foldl join_step acc).1 q = row_set acc.1 q := by
  rw [join_fold_row_set n bs acc q hwf hbs hnd, hf]

end IndexMatrix

/-!
## Claims
-/

/-- C1: for every matrix `m` and row key `r`, `union_rows(r, r)` returns `false`,
returns the matrix unchanged (no row materialized, no set mutated), and the result
compares structurally equal to the pre-call matrix. -/
theorem claim_C1_union_rows_self_noop {R : Type} [DecidableEq R]
    (m : IndexMatrix R) (r : R) (hnd : (m.matrix.map Prod.fst).Nodup) :
    (IndexMatrix.union_rows m r r).1 = m ∧ (IndexMatrix.union_rows m r r).2 = false ∧
      IndexMatrix.matEq (IndexMatrix.union_rows m r r).1 m = true := by
  have he : IndexMatrix.union_rows m r r = (m, false) := by
    simp [IndexMatrix.union_rows]
  rw [he]
  exact ⟨rfl, rfl, IndexMatrix.matEq_refl m hnd⟩

/-- Witness for C1 at the concrete matrix `{0 ↦ {1}}` and row key `0`. -/
theorem claim_C1_witness :
    (mEx1.matrix.map Prod.fst).Nodup ∧
      ((IndexMatrix.union_rows mEx1 0 0).1 = mEx1 ∧
        (IndexMatrix.union_rows mEx1 0 0).2 = false ∧
        IndexMatrix.matEq (IndexMatrix.union_rows mEx1 0 0).1 mEx1 = true) :=
  ⟨by decide, claim_C1_union_rows_self_noop mEx1 0 (by decide)⟩

/-- C6 counterexample: `union_rows(0, 1)` on a fresh matrix materializes two empty
rows; the resulting matrix is NOT structurally equal to the fresh matrix, and
`rows()` lists the materialized rows, so "row present but empty" is distinguished
from "row absent", contrary to the claim. -/
theorem claim_C6_counterexample :
    IndexMatrix.matEq mEx2 (IndexMatrix.new Nat 3) = false ∧
      IndexMatrix.keys mEx2 ≠ IndexMatrix.keys (IndexMatrix.new Nat 3) := by
  decide

/-- C6 (amended): a row inserted and then removed by `clear_row` is
indistinguishable from an absent row — for a previously-absent row `r`,
`insert(r, c)` followed by `clear_row(r)` restores the matrix exactly, hence
also up to structural equality.  (A row materialized but left empty, by
contrast, is distinguishable: see the counterexample.) -/
theorem claim_C6_insert_then_clear_row_restores {R : Type} [DecidableEq R]
    (m : IndexMatrix R) (r : R) (c : Nat)
    (habs : findRow? r m.matrix = none) (hnd : (m.matrix.map Prod.fst).Nodup) :
    IndexMatrix.clear_row (IndexMatrix.insert m r c).1 r = m ∧
      IndexMatrix.matEq (IndexMatrix.clear_row (IndexMatrix.insert m r c).1 r) m = true := by
  have hins : (IndexMatrix.insert m r c).1 =
      ⟨m.matrix ++ [(r, (BV.insert (IndexMatrix.row_set (IndexMatrix.ensure_row m r) r) c).1)],
        m.empty_set⟩ := by
    simp only [IndexMatrix.insert]
    have hens : IndexMatrix.ensure_row m r =
        ⟨m.matrix ++ [(r, m.empty_set)], m.empty_set⟩ := by
      rw [IndexMatrix.ensure_row_eq, habs]
    rw [hens, setRow_append, setRow_absent r _ m.matrix habs]
    rw [setRow_cons, if_pos rfl]
    rfl
  have hmain : IndexMatrix.clear_row (IndexMatrix.insert m r c).1 r = m := by
    rw [hins, IndexMatrix.clear_row]
    show (⟨removeRow r (m.matrix ++ [(r, _)]), m.empty_set⟩ : IndexMatrix R) = m
    rw [removeRow_append, removeRow_absent r m.matrix habs]
    have hsing : removeRow r [(r, (BV.insert (IndexMatrix.row_set (IndexMatrix.ensure_row m r) r) c).1)] = [] := by
      simp [removeRow]
    rw [hsing, List.append_nil]
  exact ⟨hmain, by rw [hmain]; exact IndexMatrix.matEq_refl m hnd⟩

/-- Witness for the amended C6 at `{0 ↦ {1}}`, row `1`, column `2`. -/
theorem claim_C6_witness :
    (findRow? 1 mEx1.matrix = none ∧ (mEx1.matrix.map Prod.fst).Nodup) ∧
      (IndexMatrix.clear_row (IndexMatrix.insert mEx1 1 2).1 1 = mEx1 ∧
        IndexMatrix.matEq (IndexMatrix.clear_row (IndexMatrix.insert mEx1 1 2).1 1) mEx1 = true) :=
  ⟨⟨by decide, by decide⟩,
    claim_C6_insert_then_clear_row_restores mEx1 1 2 (by decide) (by decide)⟩

/-- C7: a row never inserted (or removed by `clear_row`) yields no elements from
`row`, and `row_set` returns the matrix's canonical empty set; after
`clear_row(r)` lookups of `r` again return the canonical empty set, which has no
members. -/
theorem claim_C7_absent_row_lookups {R : Type} [DecidableEq R] (n : Nat)
    (m : IndexMatrix R) (r : R) (hwf : IndexMatrix.WF n m)
    (habs : findRow? r m.matrix = none) :
    IndexMatrix.row m r = [] ∧ IndexMatrix.row_set m r = m.empty_set ∧
      BV.members (IndexMatrix.row_set m r) = [] ∧
      (∀ m' : IndexMatrix R,
        IndexMatrix.row_set (IndexMatrix.clear_row m' r) r = m'.empty_set ∧
        IndexMatrix.row (IndexMatrix.clear_row m' r) r = []) := by
  have hrs : IndexMatrix.row_set m r = m.empty_set := by
    simp only [IndexMatrix.row_set, habs, Option.getD_none]
  refine ⟨?_, hrs, ?_, ?_⟩
  · rw [IndexMatrix.row_eq, habs]
  · rw [hrs, hwf.1]
    exact BV.members_empty n
  · intro m'
    have hnone : findRow? r (IndexMatrix.clear_row m' r).matrix = none := by
      show findRow? r (removeRow r m'.matrix) = none
      exact findRow?_removeRow_self r m'.matrix
    constructor
    · simp only [IndexMatrix.row_set, hnone, Option.getD_none]
      rfl
    · rw [IndexMatrix.row_eq, hnone]

/-- Witness for C7 at `{0 ↦ {1}}` (capacity 3) and the never-inserted row `2`. -/
theorem claim_C7_witness :
    (IndexMatrix.WF 3 mEx1 ∧ findRow? 2 mEx1.matrix = none) ∧
      (IndexMatrix.row mEx1 2 = [] ∧ IndexMatrix.row_set mEx1 2 = mEx1.empty_set ∧
        BV.members (IndexMatrix.row_set mEx1 2) = [] ∧
        (∀ m' : IndexMatrix Nat,
          IndexMatrix.row_set (IndexMatrix.clear_row m' 2) 2 = m'.empty_set ∧
          IndexMatrix.row (IndexMatrix.clear_row m' 2) 2 = [])) :=
  ⟨⟨by decide, by decide⟩, claim_C7_absent_row_lookups 3 mEx1 2 (by decide) (by decide)⟩

/-- C8: for the `BitVec` backend on equal-capacity sets, `union` reports `true`
iff the cardinality strictly increased, and `intersect` and `subtract` report
`true` iff the cardinality strictly decreased. -/
theorem claim_C8_changed_flags_iff_cardinality (s o : BV) (h : s.length = o.length) :
    ((BV.union s o).2 = true ↔ BV.len s < BV.len (BV.union s o).1) ∧
    ((BV.intersect s o).2 = true ↔ BV.len (BV.intersect s o).1 < BV.len s) ∧
    ((BV.subtract s o).2 = true ↔ BV.len (BV.subtract s o).1 < BV.len s) := by
  refine ⟨?_, ?_, ?_⟩
  · simpa [BV.len] using BV.union_changed_iff_count s o h
  · simpa [BV.len] using BV.intersect_changed_iff_count s o
  · simpa [BV.len] using BV.subtract_changed_iff_count s o

/-- Witness for C8 at `s = {0}`, `o = {1}` over capacity 2. -/
theorem claim_C8_witness :
    ([true, false] : BV).length = ([false, true] : BV).length ∧
      (((BV.union [true, false] [false, true]).2 = true ↔
          BV.len [true, false] < BV.len (BV.union [true, false] [false, true]).1) ∧
        ((BV.intersect [true, false] [false, true]).2 = true ↔
          BV.len (BV.intersect [true, false] [false, true]).1 < BV.len [true, false]) ∧
        ((BV.subtract [true, false] [false, true]).2 = true ↔
          BV.len (BV.subtract [true, false] [false, true]).1 < BV.len [true, false])) :=
  ⟨by decide, claim_C8_changed_flags_iff_cardinality [true, false] [false, true] (by decide)⟩

/-- C9: for both backends, `invert` complements membership of every index below
the capacity, and applying `invert` twice restores the original set. -/
theorem claim_C9_invert_complements_and_self_inverse (s : BV) (i : Nat)
    (h : i < s.length) :
    BV.contains (BV.invert s) i = !(BV.contains s i) ∧
    BV.invert (BV.invert s) = s ∧
    BV.contains (RustcBitSet.invert s) i = !(BV.contains s i) ∧
    RustcBitSet.invert (RustcBitSet.invert s) = s :=
  ⟨BV.contains_invert s i h, BV.invert_invert s,
    RustcBitSet.rcontains_invert s i h, RustcBitSet.rinvert_rinvert s⟩

/-- Witness for C9 at `s = {0}` over capacity 2, index 0. -/
theorem claim_C9_witness :
    0 < ([true, false] : BV).length ∧
      (BV.contains (BV.invert [true, false]) 0 = !(BV.contains [true, false] 0) ∧
        BV.invert (BV.invert [true, false]) = [true, false] ∧
        BV.contains (RustcBitSet.invert [true, false]) 0 = !(BV.contains [true, false] 0) ∧
        RustcBitSet.invert (RustcBitSet.invert [true, false]) = [true, false]) :=
  ⟨by decide, claim_C9_invert_complements_and_self_inverse [true, false] 0 (by decide)⟩

/-- C3: for distinct keys, `union_rows(from, to)` makes `to`'s set the union of
the old `to` and old `from` sets, reports `true` iff `to` gained a member, and
afterwards both rows are materialized while `from`'s set is unchanged. -/
theorem claim_C3_union_rows_distinct {R : Type} [DecidableEq R] (n : Nat)
    (m : IndexMatrix R) (fk tk : R) (hne : fk ≠ tk) (hwf : IndexMatrix.WF n m) :
    (∀ i, BV.contains (IndexMatrix.row_set (IndexMatrix.union_rows m fk tk).1 tk) i =
        (BV.contains (IndexMatrix.row_set m tk) i ||
          BV.contains (IndexMatrix.row_set m fk) i)) ∧
    ((IndexMatrix.union_rows m fk tk).2 = true ↔
      ∃ i, BV.contains (IndexMatrix.row_set m fk) i = true ∧
        BV.contains (IndexMatrix.row_set m tk) i = false) ∧
    fk ∈ IndexMatrix.keys (IndexMatrix.union_rows m fk tk).1 ∧
    tk ∈ IndexMatrix.keys (IndexMatrix.union_rows m fk tk).1 ∧
    IndexMatrix.row_set (IndexMatrix.union_rows m fk tk).1 fk =
      IndexMatrix.row_set m fk := by
  have hrs1 : ∀ q, IndexMatrix.row_set
      (IndexMatrix.ensure_row (IndexMatrix.ensure_row m fk) tk) q =
        IndexMatrix.row_set m q := by
    intro q
    rw [IndexMatrix.row_set_ensure_row, IndexMatrix.row_set_ensure_row]
  have hu : IndexMatrix.union_rows m fk tk =
      (⟨setRow tk (BV.union (IndexMatrix.row_set m tk) (IndexMatrix.row_set m fk)).1
          (IndexMatrix.ensure_row (IndexMatrix.ensure_row m fk) tk).matrix,
        (IndexMatrix.ensure_row (IndexMatrix.ensure_row m fk) tk).empty_set⟩,
       (BV.union (IndexMatrix.row_set m tk) (IndexMatrix.row_set m fk)).2) := by
    simp only [IndexMatrix.union_rows, if_neg hne]
    rw [hrs1, hrs1]
  have hu1 : (IndexMatrix.union_rows m fk tk).1 =
      ⟨setRow tk (BV.union (IndexMatrix.row_set m tk) (IndexMatrix.row_set m fk)).1
          (IndexMatrix.ensure_row (IndexMatrix.ensure_row m fk) tk).matrix,
        (IndexMatrix.ensure_row (IndexMatrix.ensure_row m fk) tk).empty_set⟩ := by
    rw [hu]
  have hu2 : (IndexMatrix.union_rows m fk tk).2 =
      (BV.union (IndexMatrix.row_set m tk) (IndexMatrix.row_set m fk)).2 := by
    rw [hu]
  have hlen_tk : (IndexMatrix.row_set m tk).length = n :=
    IndexMatrix.row_set_length n m hwf tk
  have hlen_fk : (IndexMatrix.row_set m fk).length = n :=
    IndexMatrix.row_set_length n m hwf fk
  have hftk : findRow? tk
      (IndexMatrix.ensure_row (IndexMatrix.ensure_row m fk) tk).matrix =
        some (IndexMatrix.row_set (IndexMatrix.ensure_row m fk) tk) :=
    IndexMatrix.findRow?_ensure_self (IndexMatrix.ensure_row m fk) tk
  refine ⟨?_, ?_, ?_, ?_, ?_⟩
  · intro i
    rw [hu1, IndexMatrix.row_set_mk_setRow_self _ _ _ _ _ hftk, BV.union_fst]
    exact BV.contains_bvor _ _ (by rw [hlen_tk, hlen_fk]) i
  · rw [hu2]
    exact BV.union_changed_iff _ _ (by rw [hlen_tk, hlen_fk])
  · rw [hu1]
    show fk ∈ (setRow tk _ _).map Prod.fst
    rw [keys_setRow]
    exact IndexMatrix.mem_keys_ensure_of_mem _ tk fk (IndexMatrix.mem_keys_ensure_self m fk)
  · rw [hu1]
    show tk ∈ (setRow tk _ _).map Prod.fst
    rw [keys_setRow]
    exact IndexMatrix.mem_keys_ensure_self (IndexMatrix.ensure_row m fk) tk
  · rw [hu1, IndexMatrix.row_set_mk_setRow_ne _ _ _ _ _ hne]
    show IndexMatrix.row_set (IndexMatrix.ensure_row (IndexMatrix.ensure_row m fk) tk) fk = _
    exact hrs1 fk

/-- Witness for C3 at the spec's end-to-end scenario `{0 ↦ {1}, 1 ↦ {2}}`,
`union_rows(0, 1)`. -/
theorem claim_C3_witness :
    ((0 : Nat) ≠ 1 ∧ IndexMatrix.WF 3 mEx3) ∧
      ((∀ i, BV.contains (IndexMatrix.row_set (IndexMatrix.union_rows mEx3 0 1).1 1) i =
          (BV.contains (IndexMatrix.row_set mEx3 1) i ||
            BV.contains (IndexMatrix.row_set mEx3 0) i)) ∧
        ((IndexMatrix.union_rows mEx3 0 1).2 = true ↔
          ∃ i, BV.contains (IndexMatrix.row_set mEx3 0) i = true ∧
            BV.contains (IndexMatrix.row_set mEx3 1) i = false) ∧
        0 ∈ IndexMatrix.keys (IndexMatrix.union_rows mEx3 0 1).1 ∧
        1 ∈ IndexMatrix.keys (IndexMatrix.union_rows mEx3 0 1).1 ∧
        IndexMatrix.row_set (IndexMatrix.union_rows mEx3 0 1).1 0 =
          IndexMatrix.row_set mEx3 0) :=
  ⟨⟨by decide, by decide⟩, claim_C3_union_rows_distinct 3 mEx3 0 1 (by decide) (by decide)⟩

/-- C2 counterexample: `b = union_rows(0,1)` on a fresh matrix holds two
materialized empty rows; `a.join(b)` for fresh `a` returns `false`, yet the
post-call `a` is structurally unequal to the pre-call `a` (two rows were
materialized), refuting "returns true iff a's value changed". -/
theorem claim_C2_counterexample :
    (IndexMatrix.join (IndexMatrix.new Nat 3) mEx2).2 = false ∧
      IndexMatrix.matEq (IndexMatrix.join (IndexMatrix.new Nat 3) mEx2).1
        (IndexMatrix.new Nat 3) = false := by
  decide

/-- C2 (amended): `a.join(b)` returns `true` iff some row of `b` contributes a
member absent from `a`'s corresponding row (i.e. iff some row's bit-set
changed); materializing empty rows does not count, so the receiver can change
structurally even when `join` reports `false`. -/
theorem claim_C2_join_changed_iff_row_bits {R : Type} [DecidableEq R] (n : Nat)
    (a b : IndexMatrix R) (hwa : IndexMatrix.WF n a) (hwb : IndexMatrix.WF n b) :
    ((IndexMatrix.join a b).2 = true ↔
      ∃ p ∈ b.matrix, ∃ i, BV.contains p.2 i = true ∧
        BV.contains (IndexMatrix.row_set a p.1) i = false) := by
  rw [IndexMatrix.join_def,
    IndexMatrix.join_fold_flag n b.matrix (a, false) hwa hwb.2.2 hwb.2.1,
    Bool.false_or, List.any_eq_true]
  constructor
  · rintro ⟨p, hp, hc⟩
    have hlen : (IndexMatrix.row_set a p.1).length = p.2.length := by
      rw [IndexMatrix.row_set_length n a hwa p.1, hwb.2.2 p hp]
    exact ⟨p, hp, (BV.union_changed_iff _ _ hlen).mp hc⟩
  · rintro ⟨p, hp, i, hbi, hai⟩
    have hlen : (IndexMatrix.row_set a p.1).length = p.2.length := by
      rw [IndexMatrix.row_set_length n a hwa p.1, hwb.2.2 p hp]
    exact ⟨p, hp, (BV.union_changed_iff _ _ hlen).mpr ⟨i, hbi, hai⟩⟩

/-- Witness for the amended C2 at `a` fresh and `b = {0 ↦ {1}}`. -/
theorem claim_C2_witness :
    (IndexMatrix.WF 3 (IndexMatrix.new Nat 3) ∧ IndexMatrix.WF 3 mEx1) ∧
      ((IndexMatrix.join (IndexMatrix.new Nat 3) mEx1).2 = true ↔
        ∃ p ∈ mEx1.matrix, ∃ i, BV.contains p.2 i = true ∧
          BV.contains (IndexMatrix.row_set (IndexMatrix.new Nat 3) p.1) i = false) :=
  ⟨⟨by decide, by decide⟩,
    claim_C2_join_changed_iff_row_bits 3 (IndexMatrix.new Nat 3) mEx1 (by decide) (by decide)⟩

/-- C4: after `a.join(b)`, every row of `a` is a pointwise superset of the
corresponding pre-join row of `a` and of the corresponding row of `b` (absent
rows read as the canonical empty set). -/
theorem claim_C4_join_superset {R : Type} [DecidableEq R] (n : Nat)
    (a b : IndexMatrix R) (hwa : IndexMatrix.WF n a) (hwb : IndexMatrix.WF n b)
    (r : R) (i : Nat) :
    (BV.contains (IndexMatrix.row_set a r) i = true →
      BV.contains (IndexMatrix.row_set (IndexMatrix.join a b).1 r) i = true) ∧
    (BV.contains (IndexMatrix.row_set b r) i = true →
      BV.contains (IndexMatrix.row_set (IndexMatrix.join a b).1 r) i = true) := by
  rw [IndexMatrix.join_def]
  cases hf : findRow? r b.matrix with
  | none =>
    have hrw : IndexMatrix.row_set
        (b.matrix.foldl IndexMatrix.join_step (a, false)).1 r =
          IndexMatrix.row_set a r :=
      IndexMatrix.join_row_set_of_none n b.matrix (a, false) r hwa hwb.2.2 hwb.2.1 hf
    rw [hrw]
    constructor
    · exact fun h => h
    · intro h
      exfalso
      have hbr : IndexMatrix.row_set b r = b.empty_set := by
        simp only [IndexMatrix.row_set, hf, Option.getD_none]
      rw [hbr, hwb.1, BV.contains_empty] at h
      cases h
  | some s =>
    have hmem := findRow?_mem r b.matrix s hf
    have hlens : s.length = n := hwb.2.2 (r, s) hmem
    have hrw : IndexMatrix.row_set
        (b.matrix.foldl IndexMatrix.join_step (a, false)).1 r =
          BV.bvor (IndexMatrix.row_set a r) s :=
      IndexMatrix.join_row_set_of_some n b.matrix (a, false) r s hwa hwb.2.2 hwb.2.1 hf
    rw [hrw]
    have hlen : (IndexMatrix.row_set a r).length = s.length := by
      rw [IndexMatrix.row_set_length n a hwa r, hlens]
    rw [BV.contains_bvor _ _ hlen i]
    constructor
    · intro h
      rw [h, Bool.true_or]
    · intro h
      have hbs : IndexMatrix.row_set b r = s := by
        simp only [IndexMatrix.row_set, hf, Option.getD_some]
      rw [hbs] at h
      rw [h, Bool.or_true]

/-- Witness for C4 at `a = {0 ↦ {1}}`, `b = {0 ↦ {1}, 1 ↦ {2}}`, row 1, bit 2. -/
theorem claim_C4_witness :
    (IndexMatrix.WF 3 mEx1 ∧ IndexMatrix.WF 3 mEx3) ∧
      ((BV.contains (IndexMatrix.row_set mEx1 1) 2 = true →
        BV.contains (IndexMatrix.row_set (IndexMatrix.join mEx1 mEx3).1 1) 2 = true) ∧
      (BV.contains (IndexMatrix.row_set mEx3 1) 2 = true →
        BV.contains (IndexMatrix.row_set (IndexMatrix.join mEx1 mEx3).1 1) 2 = true)) :=
  ⟨⟨by decide, by decide⟩, claim_C4_join_superset 3 mEx1 mEx3 (by decide) (by decide) 1 2⟩

/-- C5: immediately repeating `a.join(b)` reports no change: the second call
returns `false`. -/
theorem claim_C5_join_idempotent {R : Type} [DecidableEq R] (n : Nat)
    (a b : IndexMatrix R) (hwa : IndexMatrix.WF n a) (hwb : IndexMatrix.WF n b) :
    (IndexMatrix.join (IndexMatrix.join a b).1 b).2 = false := by
  have hwa' : IndexMatrix.WF n (IndexMatrix.join a b).1 := by
    rw [IndexMatrix.join_def]
    exact IndexMatrix.WF_join_fold n b.matrix (a, false) hwa hwb.2.2
  rw [IndexMatrix.join_def ((IndexMatrix.join a b).1) b,
    IndexMatrix.join_fold_flag n b.matrix ((IndexMatrix.join a b).1, false) hwa'
      hwb.2.2 hwb.2.1,
    Bool.false_or, List.any_eq_false]
  intro p hp
  have hlen : (IndexMatrix.row_set (IndexMatrix.join a b).1 p.1).length = p.2.length := by
    rw [IndexMatrix.row_set_length n _ hwa' p.1, hwb.2.2 p hp]
  have hsub : ∀ i, BV.contains p.2 i = true →
      BV.contains (IndexMatrix.row_set (IndexMatrix.join a b).1 p.1) i = true := by
    intro i hi
    have hrw : IndexMatrix.row_set
        (b.matrix.foldl IndexMatrix.join_step (a, false)).1 p.1 =
          BV.bvor (IndexMatrix.row_set a p.1) p.2 :=
      IndexMatrix.join_row_set_of_some n b.matrix (a, false) p.1 p.2 hwa hwb.2.2
        hwb.2.1 (findRow?_of_nodup_mem b.matrix hwb.2.1 p hp)
    have hlena : (IndexMatrix.row_set a p.1).length = p.2.length := by
      rw [IndexMatrix.row_set_length n a hwa p.1, hwb.2.2 p hp]
    rw [IndexMatrix.join_def a b, hrw, BV.contains_bvor _ _ hlena i, hi, Bool.or_true]
  have hno : (BV.union (IndexMatrix.row_set
      ((IndexMatrix.join a b).1, false).1 p.1) p.2).2 = false :=
    BV.union_not_changed _ _ hlen hsub
  rw [hno]
  simp

/-- Witness for C5 at `a` fresh and `b = {0 ↦ {1}, 1 ↦ {2}}`. -/
theorem claim_C5_witness :
    (IndexMatrix.WF 3 (IndexMatrix.new Nat 3) ∧ IndexMatrix.WF 3 mEx3) ∧
      (IndexMatrix.join (IndexMatrix.join (IndexMatrix.new Nat 3) mEx3).1 mEx3).2 = false :=
  ⟨⟨by decide, by decide⟩,
    claim_C5_join_idempotent 3 (IndexMatrix.new Nat 3) mEx3 (by decide) (by decide)⟩

/-- C10: after `clone_from`, every row's members equal the source row's members;
rows materialized in the destination but absent from the source keep their keys
(with emptied sets), so — as the concrete third conjunct shows — the result need
not compare structurally equal to the source. -/
theorem claim_C10_clone_from_members {R : Type} [DecidableEq R] (n : Nat)
    (m source : IndexMatrix R) (hws : IndexMatrix.WF n source) :
    (∀ r, BV.members (IndexMatrix.row_set (IndexMatrix.clone_from m source) r) =
        BV.members (IndexMatrix.row_set source r)) ∧
    (∀ r ∈ IndexMatrix.keys m, r ∈ IndexMatrix.keys (IndexMatrix.clone_from m source)) ∧
    IndexMatrix.matEq (IndexMatrix.clone_from mEx1 (IndexMatrix.new Nat 3))
      (IndexMatrix.new Nat 3) = false := by
  refine ⟨?_, ?_, by decide⟩
  · intro r
    have hfold := IndexMatrix.clone_fold_findRow? source.matrix
      ⟨m.matrix.map (fun p => (p.1, BV.clear p.2)), m.empty_set⟩ r hws.2.1
    rw [IndexMatrix.clone_from_def]
    cases hf : findRow? r source.matrix with
    | some v =>
      rw [hf] at hfold
      have h1 : IndexMatrix.row_set
          ⟨(source.matrix.foldl IndexMatrix.clone_step
              ⟨m.matrix.map (fun p => (p.1, BV.clear p.2)), m.empty_set⟩).matrix,
            source.empty_set⟩ r = v := by
        simp only [IndexMatrix.row_set, hfold, Option.getD_some]
      have h2 : IndexMatrix.row_set source r = v := by
        simp only [IndexMatrix.row_set, hf, Option.getD_some]
      rw [h1, h2]
    | none =>
      rw [hf] at hfold
      have h2 : IndexMatrix.row_set source r = source.empty_set := by
        simp only [IndexMatrix.row_set, hf, Option.getD_none]
      rw [h2]
      have hclr := IndexMatrix.findRow?_map_clear r m.matrix
      cases hfm : findRow? r m.matrix with
      | some w =>
        rw [hfm] at hclr
        have h1 : IndexMatrix.row_set
            ⟨(source.matrix.foldl IndexMatrix.clone_step
                ⟨m.matrix.map (fun p => (p.1, BV.clear p.2)), m.empty_set⟩).matrix,
              source.empty_set⟩ r = ([] : BV) := by
          simp only [IndexMatrix.row_set, hfold, hclr, Option.map_some', Option.getD_some]
        rw [h1, hws.1, BV.members_empty n]
        rfl
      | none =>
        rw [hfm] at hclr
        have h1 : IndexMatrix.row_set
            ⟨(source.matrix.foldl IndexMatrix.clone_step
                ⟨m.matrix.map (fun p => (p.1, BV.clear p.2)), m.empty_set⟩).matrix,
              source.empty_set⟩ r = source.empty_set := by
          simp only [IndexMatrix.row_set, hfold, hclr, Option.map_none', Option.getD_none]
        rw [h1]
  · intro r hr
    rw [IndexMatrix.clone_from_def]
    show r ∈ (source.matrix.foldl IndexMatrix.clone_step
        ⟨m.matrix.map (fun p => (p.1, BV.clear p.2)), m.empty_set⟩).matrix.map Prod.fst
    apply IndexMatrix.clone_fold_keys
    show r ∈ (m.matrix.map (fun p => (p.1, BV.clear p.2))).map Prod.fst
    rw [IndexMatrix.keys_map_clear]
    exact hr

/-- Witness for C10 at `m = {0 ↦ {1}}`, `source = {0 ↦ {1}, 1 ↦ {2}}`. -/
theorem claim_C10_witness :
    IndexMatrix.WF 3 mEx3 ∧
      ((∀ r, BV.members (IndexMatrix.row_set (IndexMatrix.clone_from mEx1 mEx3) r) =
          BV.members (IndexMatrix.row_set mEx3 r)) ∧
        (∀ r ∈ IndexMatrix.keys mEx1, r ∈ IndexMatrix.keys (IndexMatrix.clone_from mEx1 mEx3)) ∧
        IndexMatrix.matEq (IndexMatrix.clone_from mEx1 (IndexMatrix.new Nat 3))
          (IndexMatrix.new Nat 3) = false) :=
  ⟨by decide, claim_C10_clone_from_members 3 mEx1 mEx3 (by decide)⟩
